import Mathlib

/-!
Verification development for the DQM query-modelling service
(`query_modelling.py` and `wikipediaCount.py`).

The Python code is shallowly embedded as follows:
* Python floats are modelled as real numbers (`ℝ`); the transcendental
  functions `math.log`, `math.exp`, `math.pow` become `Real.log`,
  `Real.exp` and `Real.rpow`.
* Python dicts are modelled as association lists over `String` keys with
  insertion-order semantics: assigning to an existing key updates the value
  in place, assigning to a fresh key appends.  This is a deterministic
  refinement of the (unspecified) CPython 2.7 iteration order; none of the
  properties proved below depend on the iteration order of equal-score ties
  beyond that determinism.
* `nltk.wordpunct_tokenize` (an external collaborator of the repository) is
  modelled by its defining regular expression `\w+|[^\w\s]+`: maximal runs
  of word characters, maximal runs of non-word non-space characters, and
  whitespace as a separator.
* Timestamps (`datetime` values produced by `dateutil.parser.parse`) are
  modelled as real numbers counting seconds, so that
  `(new - old).total_seconds()` becomes real subtraction.  A session entry
  carries `Option ℝ`: `none` models a timestamp string that
  `dateutil.parser.parse` rejects.
-/

noncomputable section

namespace DQM

/-! ### Python dict model (insertion-ordered association list) -/

/-- Lookup in a Python dict modelled as an association list. -/
def dictLookup {α : Type} (k : String) : List (String × α) → Option α
  | [] => none
  | (k', v) :: d => if k' = k then some v else dictLookup k d

/-- Assignment `d[k] = v` on a Python dict: update in place if the key is
present, append otherwise. -/
def dictInsert {α : Type} (k : String) (v : α) : List (String × α) → List (String × α)
  | [] => [(k, v)]
  | (k', v') :: d => if k' = k then (k', v) :: d else (k', v') :: dictInsert k v d

/-- The dict built by the comprehension `{k: v for (k, v) in l}`:
repeated assignment in list order (so the last value for a key wins). -/
def dictOfList {α : Type} (l : List (String × α)) : List (String × α) :=
  l.foldl (fun d p => dictInsert p.1 p.2 d) []

/-! ### Tokenizer -/

/-- A regex word character (`\w`): alphanumeric or underscore. -/
def isWordChar (c : Char) : Bool := c.isAlphanum || c = '_'

/-- A regex whitespace character (`\s`). -/
def isSpaceChar (c : Char) : Bool :=
  c = ' ' || c = '\t' || c = '\n' || c = '\r' || c = '\x0b' || c = '\x0c'

/-- Scanner for the pattern `\w+|[^\w\s]+`: `cur` holds the class (word or
punctuation) and the reversed characters of the token being read. -/
def wptGo (cur : Option (Bool × List Char)) : List Char → List (List Char)
  | [] =>
    match cur with
    | none => []
    | some (_, acc) => [acc.reverse]
  | c :: cs =>
    if isSpaceChar c then
      match cur with
      | none => wptGo none cs
      | some (_, acc) => acc.reverse :: wptGo none cs
    else
      match cur with
      | none => wptGo (some (isWordChar c, [c])) cs
      | some (b, acc) =>
        if isWordChar c = b then wptGo (some (b, c :: acc)) cs
        else acc.reverse :: wptGo (some (isWordChar c, [c])) cs

/-- `nltk.wordpunct_tokenize`: split into maximal runs of word characters
and maximal runs of punctuation characters, dropping whitespace. -/
def wordpunct_tokenize (s : String) : List String :=
  (wptGo none s.toList).map (fun cs => String.mk cs)

/-- Python's `str.lower()`: lowercase every character. -/
def lower (s : String) : String := String.mk (s.toList.map Char.toLower)

/-- `string[0].lower() + string[1:]`: lowercase only the first character. -/
def lowerFirst (s : String) : String :=
  match s.toList with
  | [] => ""
  | c :: cs => String.mk (c.toLower :: cs)

/-- The apostrophe character, as a string. -/
def apos : String := String.mk [Char.ofNat 39]

/-- The fixed punctuation skip-set `self.skip_terms` from
`QueryModeller.__init__`. -/
def skip_terms : List String :=
  [",", ".", "...", apos, "\"", "-", "!", ":",
   "(", ")", "?", "*", "%", apos ++ ":", "\\"]

/-- `QueryModeller.tokenize`: empty input gives no tokens; otherwise
word-punct-tokenize the input with its first character lowercased and drop
tokens belonging to the skip-set. -/
def tokenize (string : String) : List String :=
  if string.length = 0 then []
  else (wordpunct_tokenize (lowerFirst string)).filter (fun t => t ∉ skip_terms)

/-! ### `wikipediaCount.py`: raw counts and derived features

The module-level `counts` dict (term → the four counters summed at load
time) and `article_count` are data loaded from external files; they appear
here as parameters.  `wikipedia_count` is the feature-derivation function.
-/

/-- `log(float(article_count)/cnts["anchor_df"]) if cnts["anchor_df"] else 0.0`. -/
def anchor_idf (article_count df : ℕ) : ℝ :=
  if df = 0 then 0 else Real.log ((article_count : ℝ) / (df : ℝ))

/-- The `text_idf` formula: identical in shape to `anchor_idf`, applied to
the text document frequency. -/
def text_idf (article_count df : ℕ) : ℝ :=
  if df = 0 then 0 else Real.log ((article_count : ℝ) / (df : ℝ))

/-- The residual-idf term `idf - log(1/(exp(tf/article_count)-1))`, guarded
by `tf == 0` as in the source. -/
def ridf (article_count : ℕ) (tf : ℕ) (idf : ℝ) : ℝ :=
  if tf = 0 then 0
  else idf - Real.log (1 / (Real.exp ((tf : ℝ) / (article_count : ℝ)) - 1))

/-- `feature_transform`: the `log_` companion of one feature. -/
def feature_transform (fv : String × ℝ) : String × ℝ :=
  ("log_" ++ fv.1, if fv.2 > 0 then Real.log fv.2 else 0)

/-- `wikipedia_count(query)`: the per-term feature dict.  The base entries
are assigned in source order; `counts.get(query, [0, 0, 1, 1])` supplies the
neutral default for unseen terms; `cnts.update(map(feature_transform, ...))`
appends the `log_` companions (all their keys are fresh). -/
def wikipedia_count (counts : String → Option (ℕ × ℕ × ℕ × ℕ))
    (article_count : ℕ) (query : String) : List (String × ℝ) :=
  let raw := (counts query).getD (0, 0, 1, 1)
  let base : List (String × ℝ) :=
    [("anchor_tf", (raw.1 : ℝ)),
     ("anchor_df", (raw.2.1 : ℝ)),
     ("text_tf", (raw.2.2.1 : ℝ)),
     ("text_df", (raw.2.2.2 : ℝ)),
     ("anchor_idf", anchor_idf article_count raw.2.1),
     ("anchor_ridf", ridf article_count raw.1 (anchor_idf article_count raw.2.1)),
     ("text_idf", text_idf article_count raw.2.2.2),
     ("text_ridf", ridf article_count raw.2.2.1 (text_idf article_count raw.2.2.2))]
  base ++ base.map feature_transform

/-! ### `Corpus` and scoring -/

/-- The corpus-side state: the loaded `counts` dict and `article_count`
from `wikipediaCount.py`, and `self.ranges`, the per-feature `(min, max)`
map cached by `Corpus.__init__` from `feature_ranges()`. -/
structure Corpus where
  counts : String → Option (ℕ × ℕ × ℕ × ℕ)
  article_count : ℕ
  ranges : String → ℝ × ℝ

/-- `Corpus.feature_normalize`: map a feature value into the cached range;
a zero-width range (Python falsy `feature_range`) normalizes to `0.0`.
The source guard `if feature_range:` takes the division branch exactly when
the width is nonzero. -/
def Corpus.feature_normalize (c : Corpus) (fv : String × ℝ) : String × ℝ :=
  let feature_range := (c.ranges fv.1).2 - (c.ranges fv.1).1
  if feature_range = 0 then (fv.1, 0)
  else (fv.1, (fv.2 - (c.ranges fv.1).1) / feature_range)

/-- The configured weight dict.  Scalar feature weights are a lookup
function; the optional `"field"` entry holds the nested field-weight dict
used by `terms_to_query` in multi-field mode. -/
structure Weights where
  w : String → Option ℝ
  field : Option (List (String × ℝ)) := none

/-- `sum(v*weights[f] for f, v in cnts.iteritems() if f in weights)`. -/
def scoreSum (weights : Weights) (cnts : List (String × ℝ)) : ℝ :=
  (cnts.filterMap (fun fv => (weights.w fv.1).map (fun wf => fv.2 * wf))).sum

/-- `Corpus.score`: derive features for the case-folded term, normalize
every derived feature (`cnts.update` with identical keys is a value-wise
map), append the unnormalized `is_capitalized` flag, and take the weighted
sum over the features present in `weights`. -/
def Corpus.score (c : Corpus) (term : String) (weights : Weights) : String × ℝ :=
  let cnts := wikipedia_count c.counts c.article_count (lower term)
  let cnts := cnts.map c.feature_normalize
  let cnts := dictInsert "is_capitalized" (if term = lower term then (0 : ℝ) else 1) cnts
  (lower term, scoreSum weights cnts)

/-! ### `QueryModeller` -/

/-- The `QueryModeller` instance state, with the default values of
`__init__` (`top_n=25`, `decay_base=0.81`, `decay_scale=1.0/60`). -/
structure QueryModeller where
  corpus : Corpus
  weights : Weights
  top_n : ℕ := 25
  decay_base : ℝ := 0.81
  decay_scale : ℝ := 1 / 60

/-- `QueryModeller.weigh`: delegate to `Corpus.score`. -/
def QueryModeller.weigh (M : QueryModeller) (term : String) : String × ℝ :=
  M.corpus.score term M.weights

/-- `QueryModeller.weighted_terms`: score every token of the query. -/
def QueryModeller.weighted_terms (M : QueryModeller) (query : String) :
    List (String × ℝ) :=
  (tokenize query).map M.weigh

/-- Stable insertion step for descending sort by score: `x` goes in front
of the first element it is not outscored by, so earlier elements win ties. -/
def insertDesc (x : String × ℝ) : List (String × ℝ) → List (String × ℝ)
  | [] => [x]
  | y :: ys => if y.2 ≤ x.2 then x :: y :: ys else y :: insertDesc x ys

/-- Python's stable `sorted(..., key=lambda (t, w): w, reverse=True)`. -/
def sortDesc : List (String × ℝ) → List (String × ℝ)
  | [] => []
  | x :: xs => insertDesc x (sortDesc xs)

/-- `QueryModeller.get_top_n`: sort the dict items by weight descending
(stably) and keep the first `top_n`. -/
def QueryModeller.get_top_n (M : QueryModeller) (weighted_terms : List (String × ℝ)) :
    List (String × ℝ) :=
  (sortDesc weighted_terms).take M.top_n

/-- `QueryModeller.terms_to_query`, with `fmt` standing for the fixed
`"%f"` rendering of a float.  Single-field mode emits `term^weight` for
positive weights; multi-field mode emits `field:term^(weight*field_weight)`
per configured field. -/
def QueryModeller.terms_to_query (M : QueryModeller) (fmt : ℝ → String)
    (weighted_terms : List (String × ℝ)) : String :=
  match M.weights.field with
  | none =>
    " ".intercalate ((weighted_terms.filter (fun p => 0 < p.2)).map
      (fun p => p.1 ++ "^" ++ fmt p.2))
  | some fields =>
    " ".intercalate (fields.map (fun fp =>
      " ".intercalate (((weighted_terms.filter (fun p => 0 < p.2 * fp.2)).map
        (fun p => fp.1 ++ ":" ++ p.1 ++ "^" ++ fmt (p.2 * fp.2))))))

/-- The ranked terms computed inside `QueryModeller.reformulate`:
`get_top_n({t: w for (t, w) in weighted_terms(query)})`. -/
def QueryModeller.reformulate_ranked (M : QueryModeller) (query : String) :
    List (String × ℝ) :=
  M.get_top_n (dictOfList (M.weighted_terms query))

/-- `QueryModeller.reformulate`: the ranked terms rendered by
`terms_to_query`. -/
def QueryModeller.reformulate (M : QueryModeller) (fmt : ℝ → String)
    (query : String) : String :=
  M.terms_to_query fmt (M.reformulate_ranked query)

/-- `QueryModeller._decay`: `pow(decay_base, decay_scale * (new - old))`,
timestamps in seconds. -/
def QueryModeller._decay (M : QueryModeller) (old new : ℝ) : ℝ :=
  M.decay_base ^ (M.decay_scale * (new - old))

/-- Stable insertion step for ascending sort by timestamp: earlier entries
win ties. -/
def insertAsc (x : String × ℝ) : List (String × ℝ) → List (String × ℝ)
  | [] => [x]
  | y :: ys => if x.2 ≤ y.2 then x :: y :: ys else y :: insertAsc x ys

/-- Python's stable `sorted(queries, key=lambda (q, dt): dt)`. -/
def sortAsc : List (String × ℝ) → List (String × ℝ)
  | [] => []
  | x :: xs => insertAsc x (sortAsc xs)

/-- How a call to `QueryModeller.model` fails: `parser.parse` raising on a
malformed timestamp, or the `ordered_queries[-1]` lookup raising on an
empty session. -/
inductive ModelError where
  | badTimestamp
  | emptySession
  deriving DecidableEq

/-- The `query_terms` accumulator loop of `QueryModeller.model` over the
already-sorted entries: for each entry and scored term,
`query_terms[term] = max(weight * decay, query_terms[term])` with the
`defaultdict(float)` default `0.0`. -/
def QueryModeller.query_terms_accum (M : QueryModeller)
    (ordered_queries : List (String × ℝ)) (most_recent_dt : ℝ) :
    List (String × ℝ) :=
  ordered_queries.foldl (fun d e =>
    (M.weighted_terms e.1).foldl (fun d tw =>
      dictInsert tw.1 (max (tw.2 * M._decay e.2 most_recent_dt)
        ((dictLookup tw.1 d).getD 0)) d) d) []

/-- `QueryModeller.model` up to the final formatting step: parse every
entry's timestamp (failing like `parser.parse`), sort by timestamp, anchor
decay at the most recent entry (failing like `ordered_queries[-1]` on an
empty session), accumulate decayed scores and rank. -/
def QueryModeller.model_ranked (M : QueryModeller)
    (queries : List (String × Option ℝ)) :
    Except ModelError (List (String × ℝ)) :=
  match queries.mapM (fun e => e.2.map (fun dt => (e.1, dt))) with
  | none => .error .badTimestamp
  | some parsed =>
    match (sortAsc parsed).getLast? with
    | none => .error .emptySession
    | some last =>
      .ok (M.get_top_n (M.query_terms_accum (sortAsc parsed) last.2))

/-- `QueryModeller.model`: the ranked session terms rendered by
`terms_to_query`. -/
def QueryModeller.model (M : QueryModeller) (fmt : ℝ → String)
    (queries : List (String × Option ℝ)) : Except ModelError String :=
  (M.model_ranked queries).map (M.terms_to_query fmt)

/-! ### Concrete corpus configurations used to exercise the code

The corpus data, the cached ranges and the weight dict are all external
inputs of the program (loaded from the dataset and the YAML configuration),
so any choice of them is a reachable program state. -/

/-- A small corpus: one known term `"a"`, ten articles, and every feature
range cached as `(0, 1)`. -/
def corpusA : Corpus :=
  { counts := fun t => if t = "a" then some (1, 1, 1, 1) else none,
    article_count := 10,
    ranges := fun _ => (0, 1) }

/-- A weight dict giving weight `1.0` to the `is_capitalized` feature and
containing no other feature. -/
def weightsCap : Weights := { w := fun f => if f = "is_capitalized" then some 1 else none }

/-- A modeller over `corpusA`/`weightsCap` with the default `top_n`, `decay_base` and
`decay_scale`. -/
def modellerCap : QueryModeller := { corpus := corpusA, weights := weightsCap }

/-- The value attached to the last occurrence of key `t` in an association
list (the value that repeated dict assignment in list order retains). -/
def lastScore {α : Type} (t : String) : List (String × α) → Option α
  | [] => none
  | (k, v) :: l =>
    match lastScore t l with
    | some v' => some v'
    | none => if k = t then some v else none

/-- A corpus with one non-degenerate cached range (`"a"` with `(0, 2)`)
and one degenerate cached range (`"b"` with `(3, 3)`). -/
def corpusB : Corpus :=
  { counts := fun _ => none,
    article_count := 2,
    ranges := fun f => if f = "b" then (3, 3) else (0, 2) }

/-- The decayed scores contributed for the case-folded term `t` by the
(sorted) session entries, relative to the most recent timestamp `mr`: one
`weight * decay` per occurrence of `t` among each entry's scored tokens. -/
def decayedScores (M : QueryModeller) (mr : ℝ) (t : String) :
    List (String × ℝ) → List ℝ
  | [] => []
  | e :: es =>
    ((M.weighted_terms e.1).filter (fun p => p.1 = t)).map
      (fun p => p.2 * M._decay e.2 mr) ++ decayedScores M mr t es

/-! ### Evaluation lemmas -/

/-- `feature_normalize` never changes the feature name. -/
theorem Corpus.feature_normalize_fst (c : Corpus) (fv : String × ℝ) :
    (c.feature_normalize fv).1 = fv.1 := by
  simp only [Corpus.feature_normalize]
  split <;> rfl

/-- A `log_`-prefixed feature name is never `is_capitalized`. -/
theorem logCat_ne (s : String) : "log_" ++ s ≠ "is_capitalized" := by
  intro h
  have h2 := congrArg (fun t : String => t.data) h
  simp [String.data_append] at h2

/-- No feature produced by `wikipedia_count` is named `is_capitalized`. -/
theorem wikipedia_count_key_ne (counts : String → Option (ℕ × ℕ × ℕ × ℕ))
    (article_count : ℕ) (query : String) :
    ∀ p ∈ wikipedia_count counts article_count query, p.1 ≠ "is_capitalized" := by
  intro p hp
  simp only [wikipedia_count, List.mem_append, List.mem_map, List.mem_cons,
    List.not_mem_nil, or_false] at hp
  rcases hp with (rfl | rfl | rfl | rfl | rfl | rfl | rfl | rfl) | ⟨x, -, rfl⟩
  · simp
  · simp
  · simp
  · simp
  · simp
  · simp
  · simp
  · simp
  · simpa [feature_transform] using logCat_ne x.1

/-- Under the weight dict `weightsCap`, the weighted sum over the feature dict (the
derived features with `is_capitalized` appended) is just the
`is_capitalized` value. -/
theorem scoreSum_W1 (v : ℝ) :
    ∀ cnts : List (String × ℝ), (∀ p ∈ cnts, p.1 ≠ "is_capitalized") →
      scoreSum weightsCap (dictInsert "is_capitalized" v cnts) = v
  | [], _ => by simp [scoreSum, dictInsert, weightsCap]
  | (k, w) :: rest, h => by
    have hk : k ≠ "is_capitalized" := h (k, w) (List.mem_cons_self _ _)
    have hrest := scoreSum_W1 v rest (fun p hp => h p (List.mem_cons_of_mem _ hp))
    simp only [scoreSum, weightsCap] at hrest ⊢
    simp only [dictInsert, if_neg hk, List.filterMap_cons, Option.map_none']
    exact hrest

/-- Under `weightsCap`, `Corpus.score` reduces to the capitalization test: every
normalized corpus feature carries no weight, and the appended
`is_capitalized` flag carries weight `1.0`. -/
theorem score_W1 (c : Corpus) (term : String) :
    c.score term weightsCap =
      (lower term, if term = lower term then (0 : ℝ) else 1) := by
  have hkeys : ∀ p ∈ (wikipedia_count c.counts c.article_count
      (lower term)).map c.feature_normalize, p.1 ≠ "is_capitalized" := by
    intro p hp
    simp only [List.mem_map] at hp
    obtain ⟨q, hq, rfl⟩ := hp
    rw [Corpus.feature_normalize_fst]
    exact wikipedia_count_key_ne _ _ _ q hq
  simp only [Corpus.score]
  rw [scoreSum_W1 _ _ hkeys]

/-- The scored tokens of `"x De de"` under `modellerCap`: the two
occurrences of the case-folded term `"de"` receive different scores,
because the second and third tokens differ in capitalization. -/
theorem modellerCap_weighted_eval :
    modellerCap.weighted_terms "x De de" = [("x", 0), ("de", 1), ("de", 0)] := by
  have ht : tokenize "x De de" = ["x", "De", "de"] := by decide
  simp only [QueryModeller.weighted_terms, QueryModeller.weigh, ht, List.map_cons,
    List.map_nil, modellerCap]
  rw [score_W1, score_W1, score_W1]
  norm_num [show lower "x" = "x" from rfl, show lower "De" = "de" from rfl,
    show lower "de" = "de" from rfl]
  decide

/-! ### Dict lemmas -/

/-- Looking a key up after an assignment. -/
theorem dictLookup_dictInsert {α : Type} (k k' : String) (v : α) :
    ∀ d, dictLookup k (dictInsert k' v d) =
      if k' = k then some v else dictLookup k d
  | [] => by simp [dictInsert, dictLookup]
  | (a, b) :: d => by
    have ih := dictLookup_dictInsert k k' v d
    by_cases h1 : a = k' <;> by_cases h2 : a = k <;> by_cases h3 : k' = k <;>
      simp_all [dictInsert, dictLookup]

/-- Folding dict assignments over a list realizes last-write-wins. -/
theorem dictLookup_foldl {α : Type} (t : String) :
    ∀ (l : List (String × α)) (d : List (String × α)),
      dictLookup t (l.foldl (fun d p => dictInsert p.1 p.2 d) d) =
        match lastScore t l with
        | some v => some v
        | none => dictLookup t d
  | [], d => rfl
  | (k, v) :: l, d => by
    have ih := dictLookup_foldl t l (dictInsert k v d)
    simp only [List.foldl_cons] at ih ⊢
    rw [ih]
    cases h : lastScore t l with
    | some v' => simp [lastScore, h]
    | none =>
      simp only [lastScore, h, dictLookup_dictInsert]
      by_cases hk : k = t <;> simp [hk]

/-! ### Claim C1 -/

/-- C1, counterexample: in the query `"x De de"` under a weight dict that
weights only `is_capitalized`, the case-folded term `"de"` is scored twice,
as `1.0` (for `"De"`) and `0.0` (for `"de"`); the deduplicating dict built
by `reformulate` retains `0.0`, the last observed score, not the maximum
`max 1 0 = 1`. -/
theorem C1_counterexample :
    modellerCap.weighted_terms "x De de" = [("x", 0), ("de", 1), ("de", 0)] ∧
    dictLookup "de" (dictOfList (modellerCap.weighted_terms "x De de")) = some 0 ∧
    (0 : ℝ) ≠ max 1 0 := by
  refine ⟨modellerCap_weighted_eval, ?_, by norm_num⟩
  rw [modellerCap_weighted_eval]
  norm_num [dictOfList, dictInsert, dictLookup]

/-- C1, amended: for every query, the dict comprehension inside
`reformulate` deduplicates the scored tokens by case-folded term, and the
score retained for a term is the score of its *last* occurrence in token
order (last-write-wins), which coincides with the maximum only when all
occurrences of the term score equally. -/
theorem C1_thm (M : QueryModeller) (query : String) (t : String) :
    dictLookup t (dictOfList (M.weighted_terms query)) =
      lastScore t (M.weighted_terms query) := by
  unfold dictOfList
  rw [dictLookup_foldl]
  cases h : lastScore t (M.weighted_terms query) <;> simp [dictLookup]

/-! ### Claim C2 -/

/-- Every character of every token produced by the scanner comes from the
pending token or from the input characters. -/
theorem wptGo_chars :
    ∀ (l : List Char) (cur : Option (Bool × List Char)) (tok : List Char),
      tok ∈ wptGo cur l → ∀ c ∈ tok,
        (∃ p, cur = some p ∧ c ∈ p.2) ∨ c ∈ l
  | [], cur, tok => by
    cases cur with
    | none => intro h; simp [wptGo] at h
    | some p =>
      intro h c hc
      simp only [wptGo, List.mem_singleton] at h
      subst h
      exact Or.inl ⟨p, rfl, by simpa using hc⟩
  | ch :: cs, cur, tok => by
    intro h c hc
    by_cases hs : isSpaceChar ch
    · cases cur with
      | none =>
        simp only [wptGo, if_pos hs] at h
        rcases wptGo_chars cs none tok h c hc with ⟨p, hp, -⟩ | hmem
        · exact absurd hp (by simp)
        · exact Or.inr (List.mem_cons_of_mem _ hmem)
      | some p =>
        simp only [wptGo, if_pos hs] at h
        rcases List.mem_cons.mp h with rfl | h2
        · exact Or.inl ⟨p, rfl, by simpa using hc⟩
        · rcases wptGo_chars cs none tok h2 c hc with ⟨q, hq, -⟩ | hmem
          · exact absurd hq (by simp)
          · exact Or.inr (List.mem_cons_of_mem _ hmem)
    · cases cur with
      | none =>
        simp only [wptGo, if_neg hs] at h
        rcases wptGo_chars cs (some (isWordChar ch, [ch])) tok h c hc with
          ⟨q, hq, hcq⟩ | hmem
        · obtain rfl : (isWordChar ch, [ch]) = q := by simpa using hq
          simp only [List.mem_singleton] at hcq
          exact Or.inr (hcq ▸ List.mem_cons_self _ _)
        · exact Or.inr (List.mem_cons_of_mem _ hmem)
      | some p =>
        obtain ⟨b, acc⟩ := p
        simp only [wptGo, if_neg hs] at h
        by_cases hb : isWordChar ch = b
        · rw [if_pos hb] at h
          rcases wptGo_chars cs (some (b, ch :: acc)) tok h c hc with
            ⟨q, hq, hcq⟩ | hmem
          · obtain rfl : (b, ch :: acc) = q := by simpa using hq
            rcases List.mem_cons.mp hcq with rfl | hacc
            · exact Or.inr (List.mem_cons_self _ _)
            · exact Or.inl ⟨(b, acc), rfl, hacc⟩
          · exact Or.inr (List.mem_cons_of_mem _ hmem)
        · rw [if_neg hb] at h
          rcases List.mem_cons.mp h with rfl | h2
          · exact Or.inl ⟨(b, acc), rfl, by simpa using hc⟩
          · rcases wptGo_chars cs (some (isWordChar ch, [ch])) tok h2 c hc with
              ⟨q, hq, hcq⟩ | hmem
            · obtain rfl : (isWordChar ch, [ch]) = q := by simpa using hq
              simp only [List.mem_singleton] at hcq
              exact Or.inr (hcq ▸ List.mem_cons_self _ _)
            · exact Or.inr (List.mem_cons_of_mem _ hmem)

/-- C2, counterexample: tokenizing `"De"` yields the token `"de"`, whose
first character's case has been altered (the claim asserts no character's
case is changed by tokenization). -/
theorem C2_counterexample :
    tokenize "De" = ["de"] ∧ "de" ≠ "De" := by decide

/-- C2, amended: `tokenize` first lowercases the first character of the
input string; beyond that fold, no character is altered — every character
of every returned token occurs in `lowerFirst` of the input — and the only
tokens removed are the members of the fixed skip-set. -/
theorem C2_thm (s t : String) (ht : t ∈ tokenize s) :
    (∀ c ∈ t.data, c ∈ (lowerFirst s).data) ∧ t ∉ skip_terms := by
  unfold tokenize at ht
  split at ht
  · simp at ht
  · rw [List.mem_filter] at ht
    obtain ⟨hmem, hskip⟩ := ht
    refine ⟨?_, by simpa using hskip⟩
    simp only [wordpunct_tokenize, List.mem_map] at hmem
    obtain ⟨tok, htok, rfl⟩ := hmem
    intro c hc
    rcases wptGo_chars _ none tok htok c (by simpa using hc) with ⟨p, hp, -⟩ | h
    · exact absurd hp (by simp)
    · exact h

/-- C2, witness: the token `"aap"` of `tokenize "De aap"` satisfies the
amended property at a concrete input. -/
theorem C2_witness :
    "aap" ∈ tokenize "De aap" ∧
      ((∀ c ∈ "aap".data, c ∈ (lowerFirst "De aap").data) ∧
        "aap" ∉ skip_terms) :=
  ⟨by decide, C2_thm "De aap" "aap" (by decide)⟩

/-! ### Claim C4 -/

/-- C4: with `decay_base` in `(0,1)` and `decay_scale > 0`, the decay
factor of an entry whose timestamp equals the most recent timestamp is
exactly `1.0`, and the decay factor strictly decreases as the non-negative
time gap to the most recent timestamp grows. -/
theorem C4_thm (M : QueryModeller) (hb0 : 0 < M.decay_base)
    (hb1 : M.decay_base < 1) (hs : 0 < M.decay_scale) :
    (∀ t : ℝ, M._decay t t = 1) ∧
    (∀ new g₁ g₂ : ℝ, 0 ≤ g₁ → g₁ < g₂ →
      M._decay (new - g₂) new < M._decay (new - g₁) new) := by
  refine ⟨fun t => ?_, fun new g₁ g₂ _ hg => ?_⟩
  · simp [QueryModeller._decay, Real.rpow_zero]
  · unfold QueryModeller._decay
    have h1 : new - (new - g₁) = g₁ := by ring
    have h2 : new - (new - g₂) = g₂ := by ring
    rw [h1, h2]
    exact Real.rpow_lt_rpow_of_exponent_gt hb0 hb1
      (mul_lt_mul_of_pos_left hg hs)

/-- C4, witness: the default configuration (`decay_base = 0.81`,
`decay_scale = 1/60`) satisfies the hypotheses, decays the most recent
entry by exactly `1.0`, and decays a 120-second gap strictly below a
60-second gap. -/
theorem C4_witness :
    (0 < modellerCap.decay_base ∧ modellerCap.decay_base < 1 ∧
      0 < modellerCap.decay_scale ∧ (0 : ℝ) ≤ 60 ∧ (60 : ℝ) < 120) ∧
    modellerCap._decay 5 5 = 1 ∧
    modellerCap._decay (10 - 120) 10 < modellerCap._decay (10 - 60) 10 := by
  have hb0 : 0 < modellerCap.decay_base := by norm_num [modellerCap]
  have hb1 : modellerCap.decay_base < 1 := by norm_num [modellerCap]
  have hs : 0 < modellerCap.decay_scale := by norm_num [modellerCap]
  exact ⟨⟨hb0, hb1, hs, by norm_num, by norm_num⟩,
    (C4_thm modellerCap hb0 hb1 hs).1 5,
    (C4_thm modellerCap hb0 hb1 hs).2 10 60 120 (by norm_num) (by norm_num)⟩

/-! ### Claim C5 -/

/-- C5: the empty session makes `model` fail — no most-recent timestamp
exists (`ordered_queries[-1]` has nothing to return), so the result is the
empty-session error, never a ranked result. -/
theorem C5_thm (M : QueryModeller) (fmt : ℝ → String) :
    M.model fmt [] = .error .emptySession ∧
    M.model_ranked [] = .error .emptySession ∧
    ∀ r, M.model_ranked [] ≠ .ok r := by
  refine ⟨rfl, rfl, fun r h => ?_⟩
  have h2 : (Except.error ModelError.emptySession :
      Except ModelError (List (String × ℝ))) = Except.ok r := by
    rw [← h]; rfl
  exact Except.noConfusion h2

/-! ### Claim C6 -/

/-- C6: against the cached range of a feature, the range minimum
normalizes to `0.0` and the maximum to `1.0` whenever the range is
non-degenerate, and every value of a degenerate range (min = max)
normalizes to `0.0` with no division performed. -/
theorem C6_thm (c : Corpus) (f : String) :
    ((c.ranges f).1 ≠ (c.ranges f).2 →
      c.feature_normalize (f, (c.ranges f).1) = (f, 0) ∧
      c.feature_normalize (f, (c.ranges f).2) = (f, 1)) ∧
    ((c.ranges f).1 = (c.ranges f).2 →
      ∀ v : ℝ, c.feature_normalize (f, v) = (f, 0)) := by
  constructor
  · intro hne
    have hr : (c.ranges f).2 - (c.ranges f).1 ≠ 0 :=
      sub_ne_zero.mpr (Ne.symm hne)
    constructor
    · simp only [Corpus.feature_normalize]
      rw [if_neg hr, sub_self, zero_div]
    · simp only [Corpus.feature_normalize]
      rw [if_neg hr, div_self hr]
  · intro heq v
    simp only [Corpus.feature_normalize]
    rw [if_pos (by rw [heq, sub_self])]

/-- C6, witness: both halves of the normalization property evaluated on
`corpusB`. -/
theorem C6_witness :
    ((corpusB.ranges "a").1 ≠ (corpusB.ranges "a").2 ∧
      corpusB.feature_normalize ("a", (corpusB.ranges "a").1) = ("a", 0) ∧
      corpusB.feature_normalize ("a", (corpusB.ranges "a").2) = ("a", 1)) ∧
    ((corpusB.ranges "b").1 = (corpusB.ranges "b").2 ∧
      corpusB.feature_normalize ("b", 5) = ("b", 0)) := by
  have hra : corpusB.ranges "a" = (0, 2) := by simp [corpusB]
  have hrb : corpusB.ranges "b" = (3, 3) := by simp [corpusB]
  have hne : (corpusB.ranges "a").1 ≠ (corpusB.ranges "a").2 := by
    rw [hra]; norm_num
  have heq : (corpusB.ranges "b").1 = (corpusB.ranges "b").2 := by
    rw [hrb]
  have h1 := (C6_thm corpusB "a").1 hne
  exact ⟨⟨hne, h1.1, h1.2⟩, ⟨heq, (C6_thm corpusB "b").2 heq 5⟩⟩

/-! ### Claim C7 -/

/-- C7, counterexample: with `article_count = 2`, the idf at document
frequency `0` is the defined value `0.0` but the idf at document frequency
`1` is `log 2 > 0`, so the idf is not monotonically non-increasing over
the non-negative integers starting at zero. -/
theorem C7_counterexample :
    anchor_idf 2 0 = 0 ∧ text_idf 2 0 = 0 ∧
    anchor_idf 2 0 < anchor_idf 2 1 ∧ text_idf 2 0 < text_idf 2 1 := by
  have h1 : anchor_idf 2 1 = Real.log 2 := by norm_num [anchor_idf]
  have h2 : text_idf 2 1 = Real.log 2 := by norm_num [text_idf]
  have h0a : anchor_idf 2 0 = 0 := by simp [anchor_idf]
  have h0t : text_idf 2 0 = 0 := by simp [text_idf]
  have hlog : (0 : ℝ) < Real.log 2 := Real.log_pos (by norm_num)
  exact ⟨h0a, h0t, by rw [h0a, h1]; exact hlog, by rw [h0t, h2]; exact hlog⟩

/-- C7, amended: for a fixed positive `article_count`, `anchor_idf` and
`text_idf` are monotonically non-increasing over *positive* document
frequencies, and a zero document frequency is mapped to the separately
defined value `0.0` (which breaks monotonicity at the step from `0` to a
positive frequency whenever `article_count ≥ 2`). -/
theorem C7_thm (N : ℕ) (hN : 0 < N) :
    (∀ d₁ d₂ : ℕ, 1 ≤ d₁ → d₁ ≤ d₂ → anchor_idf N d₂ ≤ anchor_idf N d₁) ∧
    (∀ d₁ d₂ : ℕ, 1 ≤ d₁ → d₁ ≤ d₂ → text_idf N d₂ ≤ text_idf N d₁) ∧
    anchor_idf N 0 = 0 ∧ text_idf N 0 = 0 := by
  have key : ∀ d₁ d₂ : ℕ, 1 ≤ d₁ → d₁ ≤ d₂ →
      Real.log ((N : ℝ) / (d₂ : ℝ)) ≤ Real.log ((N : ℝ) / (d₁ : ℝ)) := by
    intro d₁ d₂ h1 h12
    have hd1 : (0 : ℝ) < (d₁ : ℝ) := by exact_mod_cast h1
    have hd2 : (0 : ℝ) < (d₂ : ℝ) := lt_of_lt_of_le hd1 (by exact_mod_cast h12)
    have hNpos : (0 : ℝ) < (N : ℝ) := by exact_mod_cast hN
    exact Real.log_le_log (div_pos hNpos hd2)
      (div_le_div_of_nonneg_left hNpos.le hd1 (by exact_mod_cast h12))
  refine ⟨fun d₁ d₂ h1 h12 => ?_, fun d₁ d₂ h1 h12 => ?_,
    by simp [anchor_idf], by simp [text_idf]⟩
  · rw [anchor_idf, anchor_idf, if_neg (by omega), if_neg (by omega)]
    exact key d₁ d₂ h1 h12
  · rw [text_idf, text_idf, if_neg (by omega), if_neg (by omega)]
    exact key d₁ d₂ h1 h12

/-- C7, witness: the amended monotonicity applied at `article_count = 2`
and document frequencies `1 ≤ 2`. -/
theorem C7_witness :
    (0 < 2 ∧ 1 ≤ 1 ∧ 1 ≤ 2) ∧
    anchor_idf 2 2 ≤ anchor_idf 2 1 ∧ text_idf 2 2 ≤ text_idf 2 1 ∧
    anchor_idf 2 0 = 0 ∧ text_idf 2 0 = 0 := by
  have h := C7_thm 2 (by norm_num)
  exact ⟨⟨by norm_num, le_refl 1, by norm_num⟩,
    h.1 1 2 (le_refl 1) (by norm_num), h.2.1 1 2 (le_refl 1) (by norm_num),
    h.2.2.1, h.2.2.2⟩

/-! ### Claim C8 -/

/-- Membership after insertion. -/
theorem mem_insertDesc (x z : String × ℝ) :
    ∀ l, z ∈ insertDesc x l → z = x ∨ z ∈ l
  | [], h => by simpa [insertDesc] using h
  | y :: ys, h => by
    rw [insertDesc] at h
    split at h
    · rcases List.mem_cons.mp h with rfl | h2
      · exact Or.inl rfl
      · exact Or.inr h2
    · rcases List.mem_cons.mp h with rfl | h2
      · exact Or.inr (List.mem_cons_self _ _)
      · rcases mem_insertDesc x z ys h2 with rfl | h3
        · exact Or.inl rfl
        · exact Or.inr (List.mem_cons_of_mem _ h3)

/-- Inserting preserves descending order by score. -/
theorem insertDesc_pairwise (x : String × ℝ) :
    ∀ l, l.Pairwise (fun a b : String × ℝ => b.2 ≤ a.2) →
      (insertDesc x l).Pairwise (fun a b : String × ℝ => b.2 ≤ a.2)
  | [], _ => by simp [insertDesc]
  | y :: ys, h => by
    rw [List.pairwise_cons] at h
    by_cases hc : y.2 ≤ x.2
    · rw [insertDesc, if_pos hc, List.pairwise_cons]
      refine ⟨fun z hz => ?_, List.pairwise_cons.mpr h⟩
      rcases List.mem_cons.mp hz with rfl | hz2
      · exact hc
      · exact le_trans (h.1 z hz2) hc
    · rw [insertDesc, if_neg hc, List.pairwise_cons]
      refine ⟨fun z hz => ?_, insertDesc_pairwise x ys h.2⟩
      rcases mem_insertDesc x z ys hz with rfl | hz2
      · exact le_of_lt (lt_of_not_le hc)
      · exact h.1 z hz2

/-- The stable descending sort always produces a list whose scores are in
non-increasing order. -/
theorem sortDesc_pairwise :
    ∀ l, (sortDesc l).Pairwise (fun a b : String × ℝ => b.2 ≤ a.2)
  | [] => by simp [sortDesc]
  | x :: xs => insertDesc_pairwise x (sortDesc xs) (sortDesc_pairwise xs)

/-- C8: for any input mapping of term-to-weight pairs, `get_top_n` returns
at most `top_n` entries, with scores in non-increasing order. -/
theorem C8_thm (M : QueryModeller) (wt : List (String × ℝ)) :
    (M.get_top_n wt).length ≤ M.top_n ∧
    (M.get_top_n wt).Pairwise (fun a b : String × ℝ => b.2 ≤ a.2) := by
  constructor
  · simp only [QueryModeller.get_top_n]
    exact List.length_take_le _ _
  · simp only [QueryModeller.get_top_n]
    exact (sortDesc_pairwise wt).sublist (List.take_sublist _ _)

/-! ### Claim C9 -/

/-- C9: a term absent from the corpus vocabulary gets the neutral default
counters `(anchor_tf, anchor_df, text_tf, text_df) = (0, 0, 1, 1)` from
`counts.get(query, [0, 0, 1, 1])`, and scoring it succeeds: `Corpus.score`
returns the case-folded term with a score under any weight dict. -/
theorem C9_thm (c : Corpus) (term : String)
    (h : c.counts (lower term) = none) :
    dictLookup "anchor_tf"
      (wikipedia_count c.counts c.article_count (lower term)) = some 0 ∧
    dictLookup "anchor_df"
      (wikipedia_count c.counts c.article_count (lower term)) = some 0 ∧
    dictLookup "text_tf"
      (wikipedia_count c.counts c.article_count (lower term)) = some 1 ∧
    dictLookup "text_df"
      (wikipedia_count c.counts c.article_count (lower term)) = some 1 ∧
    ∀ W : Weights, ∃ s : ℝ, c.score term W = (lower term, s) := by
  refine ⟨?_, ?_, ?_, ?_, fun W => ⟨_, rfl⟩⟩
  all_goals simp [wikipedia_count, h, dictLookup]

/-- C9, witness: the term `"Qz"` is unseen in `corpusB` and scores without
error. -/
theorem C9_witness :
    corpusB.counts (lower "Qz") = none ∧
    (dictLookup "anchor_tf"
      (wikipedia_count corpusB.counts corpusB.article_count (lower "Qz")) = some 0 ∧
    dictLookup "anchor_df"
      (wikipedia_count corpusB.counts corpusB.article_count (lower "Qz")) = some 0 ∧
    dictLookup "text_tf"
      (wikipedia_count corpusB.counts corpusB.article_count (lower "Qz")) = some 1 ∧
    dictLookup "text_df"
      (wikipedia_count corpusB.counts corpusB.article_count (lower "Qz")) = some 1) ∧
    ∃ s : ℝ, corpusB.score "Qz" weightsCap = (lower "Qz", s) := by
  have h := C9_thm corpusB "Qz" rfl
  exact ⟨rfl, ⟨h.1, h.2.1, h.2.2.1, h.2.2.2.1⟩, h.2.2.2.2 weightsCap⟩

/-! ### Claim C3 -/

/-- A successful lookup points at an entry of the dict. -/
theorem dictLookup_mem {α : Type} (k : String) (v : α) :
    ∀ d, dictLookup k d = some v → (k, v) ∈ d
  | [], h => by simp [dictLookup] at h
  | (a, b) :: d, h => by
    rw [dictLookup] at h
    split at h
    · obtain ⟨rfl⟩ := h
      subst ‹a = k›
      exact List.mem_cons_self _ _
    · exact List.mem_cons_of_mem _ (dictLookup_mem k v d h)

/-- Membership after a dict assignment. -/
theorem mem_dictInsert {α : Type} (k : String) (v : α) (p : String × α) :
    ∀ d, p ∈ dictInsert k v d → p = (k, v) ∨ p ∈ d
  | [], h => by simpa [dictInsert] using h
  | (a, b) :: d, h => by
    rw [dictInsert] at h
    split at h
    · rcases List.mem_cons.mp h with rfl | h2
      · exact Or.inl (by rw [‹a = k›])
      · exact Or.inr (List.mem_cons_of_mem _ h2)
    · rcases List.mem_cons.mp h with rfl | h2
      · exact Or.inr (List.mem_cons_self _ _)
      · rcases mem_dictInsert k v p d h2 with h3 | h3
        · exact Or.inl h3
        · exact Or.inr (List.mem_cons_of_mem _ h3)

/-- When every score is non-negative and equal-keyed pairs carry equal
scores (all drawn from a reference list `l₀`), the max-merge fold of
`model` builds exactly the same dict as the plain assignment fold of the
`reformulate` dict comprehension. -/
theorem foldMax_eq_dict (l₀ : List (String × ℝ))
    (hpos : ∀ p ∈ l₀, 0 ≤ p.2)
    (heq : ∀ p ∈ l₀, ∀ p' ∈ l₀, p.1 = p'.1 → p.2 = p'.2) :
    ∀ (l d : List (String × ℝ)), (∀ p ∈ l, p ∈ l₀) → (∀ p ∈ d, p ∈ l₀) →
      l.foldl (fun d tw =>
          dictInsert tw.1 (max tw.2 ((dictLookup tw.1 d).getD 0)) d) d =
        l.foldl (fun d p => dictInsert p.1 p.2 d) d
  | [], d, _, _ => rfl
  | (k, w) :: l, d, hl, hd => by
    have hkw : (k, w) ∈ l₀ := hl _ (List.mem_cons_self _ _)
    have hstep : dictInsert k (max w ((dictLookup k d).getD 0)) d =
        dictInsert k w d := by
      cases h : dictLookup k d with
      | none => rw [Option.getD_none, max_eq_left (hpos _ hkw)]
      | some v =>
        have hv : (k, v) ∈ d := dictLookup_mem k v d h
        have : w = v := heq _ hkw _ (hd _ hv) rfl
        rw [Option.getD_some, ← this, max_self]
    simp only [List.foldl_cons, hstep]
    exact foldMax_eq_dict l₀ hpos heq l (dictInsert k w d)
      (fun p hp => hl p (List.mem_cons_of_mem _ hp))
      (fun p hp => by
        rcases mem_dictInsert k w p d hp with rfl | h2
        · exact hkw
        · exact hd p h2)

/-- C3, amended: a single-entry session (with a parsable timestamp) is
modelled identically to `reformulate` on its query, *provided* every
scored token weight is non-negative and repeated occurrences of the same
case-folded term score equally; the decay factor of the only entry is 1. -/
theorem C3_thm (M : QueryModeller) (q : String) (t0 : ℝ)
    (hpos : ∀ p ∈ M.weighted_terms q, 0 ≤ p.2)
    (heq : ∀ p ∈ M.weighted_terms q, ∀ p' ∈ M.weighted_terms q,
      p.1 = p'.1 → p.2 = p'.2) :
    M.model_ranked [(q, some t0)] = .ok (M.reformulate_ranked q) := by
  have h1 : M.model_ranked [(q, some t0)] =
      .ok (M.get_top_n (M.query_terms_accum [(q, t0)] t0)) := rfl
  have hdecay : M._decay t0 t0 = 1 := by
    simp [QueryModeller._decay, Real.rpow_zero]
  have h2 : M.query_terms_accum [(q, t0)] t0 =
      dictOfList (M.weighted_terms q) := by
    simp only [QueryModeller.query_terms_accum, List.foldl_cons, List.foldl_nil]
    have hfun : (fun (d : List (String × ℝ)) (tw : String × ℝ) =>
        dictInsert tw.1 (max (tw.2 * M._decay t0 t0)
          ((dictLookup tw.1 d).getD 0)) d) =
        (fun d tw => dictInsert tw.1 (max tw.2 ((dictLookup tw.1 d).getD 0)) d) := by
      funext d tw
      rw [hdecay, mul_one]
    rw [hfun]
    exact foldMax_eq_dict (M.weighted_terms q) hpos heq _ []
      (fun p hp => hp) (fun p hp => absurd hp (List.not_mem_nil p))
  rw [h1, h2]
  rfl

/-- The scored tokens of `"aap noot"` under `modellerCap`: two distinct
all-lowercase terms, each scoring `0.0`. -/
theorem modellerCap_weighted_aap :
    modellerCap.weighted_terms "aap noot" = [("aap", 0), ("noot", 0)] := by
  have ht : tokenize "aap noot" = ["aap", "noot"] := by decide
  simp only [QueryModeller.weighted_terms, QueryModeller.weigh, ht,
    List.map_cons, List.map_nil, modellerCap]
  rw [score_W1, score_W1]
  norm_num [show lower "aap" = "aap" from rfl, show lower "noot" = "noot" from rfl]

/-- C3, witness: the amended equivalence applied to the single-entry
session `[("aap noot", 0)]`, whose scored tokens satisfy both side
conditions. -/
theorem C3_witness :
    (∀ p ∈ modellerCap.weighted_terms "aap noot", 0 ≤ p.2) ∧
    (∀ p ∈ modellerCap.weighted_terms "aap noot",
      ∀ p' ∈ modellerCap.weighted_terms "aap noot", p.1 = p'.1 → p.2 = p'.2) ∧
    modellerCap.model_ranked [("aap noot", some 0)] =
      .ok (modellerCap.reformulate_ranked "aap noot") := by
  have hpos : ∀ p ∈ modellerCap.weighted_terms "aap noot", 0 ≤ p.2 := by
    rw [modellerCap_weighted_aap]
    intro p hp
    rcases List.mem_cons.mp hp with rfl | hp2
    · norm_num
    · rcases List.mem_cons.mp hp2 with rfl | hp3
      · norm_num
      · simp at hp3
  have heq : ∀ p ∈ modellerCap.weighted_terms "aap noot",
      ∀ p' ∈ modellerCap.weighted_terms "aap noot", p.1 = p'.1 → p.2 = p'.2 := by
    rw [modellerCap_weighted_aap]
    intro p hp p' hp' hk
    simp only [List.mem_cons, List.not_mem_nil, or_false] at hp hp'
    rcases hp with rfl | rfl <;> rcases hp' with rfl | rfl <;> simp_all
  exact ⟨hpos, heq, C3_thm modellerCap "aap noot" 0 hpos heq⟩

/-- The `model` accumulator for the single-entry session `"x De de"` at
timestamp `0`: the decay factor is 1 and the max-merge keeps `1.0` for
`"de"` — unlike the `reformulate` dict, which keeps the last score `0.0`. -/
theorem modellerCap_accum_eval :
    modellerCap.query_terms_accum [("x De de", 0)] 0 = [("x", 0), ("de", 1)] := by
  have hdecay : modellerCap._decay 0 0 = 1 := by
    simp [QueryModeller._decay, Real.rpow_zero]
  simp only [QueryModeller.query_terms_accum, List.foldl_cons, List.foldl_nil,
    modellerCap_weighted_eval, hdecay]
  simp [dictInsert, dictLookup, max_def]

/-- C3, counterexample: on the single-entry session `[("x De de", 0)]`
under the `is_capitalized`-only weight dict, `model` ranks
`[("de", 1), ("x", 0)]` while `reformulate` on the same query ranks
`[("x", 0), ("de", 0)]` — different RankedTerms (and nonzero vs. zero
weight for `"de"`), because `model` max-merges while the `reformulate`
dict comprehension keeps the last score. -/
theorem C3_counterexample :
    modellerCap.model_ranked [("x De de", some 0)] = .ok [("de", 1), ("x", 0)] ∧
    modellerCap.reformulate_ranked "x De de" = [("x", 0), ("de", 0)] ∧
    ([("de", (1 : ℝ)), ("x", 0)] : List (String × ℝ)) ≠ [("x", 0), ("de", 0)] := by
  refine ⟨?_, ?_, by simp⟩
  · have h1 : modellerCap.model_ranked [("x De de", some 0)] =
        .ok (modellerCap.get_top_n
          (modellerCap.query_terms_accum [("x De de", 0)] 0)) := rfl
    rw [h1, modellerCap_accum_eval]
    have : modellerCap.get_top_n [("x", 0), ("de", 1)] = [("de", 1), ("x", 0)] := by
      simp only [QueryModeller.get_top_n, sortDesc, insertDesc]
      norm_num [modellerCap]
    rw [this]
  · simp only [QueryModeller.reformulate_ranked, modellerCap_weighted_eval]
    have hd : dictOfList [(("x" : String), (0 : ℝ)), ("de", 1), ("de", 0)] =
        [("x", 0), ("de", 0)] := by
      simp [dictOfList, dictInsert]
    rw [hd]
    simp only [QueryModeller.get_top_n, sortDesc, insertDesc]
    norm_num [modellerCap]

/-! ### Claim C10 -/

/-- One entry's token loop: the accumulator value of `t` afterwards is the
running max of the entry's decayed contributions for `t`, seeded by the
previous accumulator value (`0.0` by `defaultdict(float)` if absent). -/
theorem lookup_tokenFold (t : String) (dfac : ℝ) :
    ∀ (l d : List (String × ℝ)),
      dictLookup t (l.foldl (fun d tw =>
          dictInsert tw.1 (max (tw.2 * dfac) ((dictLookup tw.1 d).getD 0)) d) d) =
        if (l.filter (fun p => p.1 = t)).map (fun p => p.2 * dfac) = [] then
          dictLookup t d
        else
          some (((l.filter (fun p => p.1 = t)).map (fun p => p.2 * dfac)).foldl
            (fun a x => max x a) ((dictLookup t d).getD 0))
  | [], d => by simp
  | (k, w) :: l, d => by
    have ih := lookup_tokenFold t dfac l
      (dictInsert k (max (w * dfac) ((dictLookup k d).getD 0)) d)
    simp only [List.foldl_cons] at ih ⊢
    rw [ih]
    by_cases hk : k = t
    · subst hk
      rw [List.filter_cons_of_pos (by simp), List.map_cons]
      rw [dictLookup_dictInsert, if_pos rfl]
      cases hfil : (l.filter (fun p => p.1 = k)).map (fun p => p.2 * dfac) with
      | nil => simp [hfil]
      | cons x xs => simp [hfil, List.foldl_cons]
    · rw [List.filter_cons_of_neg (by simp [hk])]
      rw [dictLookup_dictInsert, if_neg hk]

/-- The full accumulator loop of `model`: the value recorded for `t` is
the running max of all decayed contributions for `t`, seeded by the
initial accumulator. -/
theorem lookup_accum (M : QueryModeller) (mr : ℝ) (t : String) :
    ∀ (entries d : List (String × ℝ)),
      dictLookup t (entries.foldl (fun d e =>
          (M.weighted_terms e.1).foldl (fun d tw =>
            dictInsert tw.1 (max (tw.2 * M._decay e.2 mr)
              ((dictLookup tw.1 d).getD 0)) d) d) d) =
        if decayedScores M mr t entries = [] then dictLookup t d
        else some ((decayedScores M mr t entries).foldl
          (fun a x => max x a) ((dictLookup t d).getD 0))
  | [], d => by simp [decayedScores]
  | e :: es, d => by
    have htok := lookup_tokenFold t (M._decay e.2 mr) (M.weighted_terms e.1) d
    have ih := lookup_accum M mr t es
      ((M.weighted_terms e.1).foldl (fun d tw =>
        dictInsert tw.1 (max (tw.2 * M._decay e.2 mr)
          ((dictLookup tw.1 d).getD 0)) d) d)
    simp only [List.foldl_cons]
    rw [ih, decayedScores]
    cases hcE : ((M.weighted_terms e.1).filter (fun p => p.1 = t)).map
        (fun p => p.2 * M._decay e.2 mr) with
    | nil =>
      rw [hcE] at htok
      rw [if_pos rfl] at htok
      rw [List.nil_append, htok]
    | cons x xs =>
      rw [hcE] at htok
      rw [if_neg (List.cons_ne_nil x xs)] at htok
      cases hcs : decayedScores M mr t es with
      | nil =>
        rw [if_pos rfl, htok, List.append_nil, if_neg (List.cons_ne_nil x xs)]
      | cons y ys =>
        rw [if_neg (List.cons_ne_nil y ys), htok, Option.getD_some,
          if_neg (by simp), List.foldl_append]

/-- The seed never exceeds a running max fold. -/
theorem foldlMax_ge_init :
    ∀ (l : List ℝ) (a : ℝ), a ≤ l.foldl (fun a x => max x a) a
  | [], a => le_refl a
  | x :: l, a => le_trans (le_max_right x a) (foldlMax_ge_init l (max x a))

/-- Every element is bounded by the running max fold. -/
theorem foldlMax_le :
    ∀ (l : List ℝ) (a x : ℝ), x ∈ l → x ≤ l.foldl (fun a x => max x a) a
  | [], _, x, h => absurd h (List.not_mem_nil x)
  | y :: l, a, x, h => by
    rcases List.mem_cons.mp h with rfl | h2
    · exact le_trans (le_max_left x a) (foldlMax_ge_init l (max x a))
    · exact foldlMax_le l (max y a) x h2

/-- A running max fold returns its seed or one of the elements. -/
theorem foldlMax_cases :
    ∀ (l : List ℝ) (a : ℝ),
      l.foldl (fun a x => max x a) a = a ∨ l.foldl (fun a x => max x a) a ∈ l
  | [], _ => Or.inl rfl
  | x :: l, a => by
    rw [List.foldl_cons]
    rcases foldlMax_cases l (max x a) with h | h
    · rw [h]
      rcases max_choice x a with h2 | h2
      · exact Or.inr (by rw [h2]; exact List.mem_cons_self _ _)
      · exact Or.inl h2
    · exact Or.inr (List.mem_cons_of_mem _ h)

/-- C10: for a session whose timestamps all parse and which is non-empty
(`getLast?` of the sorted entries succeeds), `model` ranks the accumulator
built by *max*-merging: the accumulator value of each case-folded term `t`
is the running max, from the implicit initial value `0.0`, of the decayed
scores `weight * decay` over all occurrences of `t` in the session — every
recorded weight is `≥ 0`, bounds every decayed contribution of `t`, and
is either `0` or one of those contributions. -/
theorem C10_thm (M : QueryModeller) (queries : List (String × Option ℝ))
    (parsed : List (String × ℝ)) (last : String × ℝ)
    (hp : queries.mapM (fun e => e.2.map (fun dt => (e.1, dt))) = some parsed)
    (hl : (sortAsc parsed).getLast? = some last) :
    M.model_ranked queries =
      .ok (M.get_top_n (M.query_terms_accum (sortAsc parsed) last.2)) ∧
    (∀ t : String,
      dictLookup t (M.query_terms_accum (sortAsc parsed) last.2) =
        if decayedScores M last.2 t (sortAsc parsed) = [] then none
        else some ((decayedScores M last.2 t (sortAsc parsed)).foldl
          (fun a x => max x a) 0)) ∧
    (∀ (t : String) (v : ℝ),
      dictLookup t (M.query_terms_accum (sortAsc parsed) last.2) = some v →
        0 ≤ v ∧ (∀ x ∈ decayedScores M last.2 t (sortAsc parsed), x ≤ v) ∧
        (v = 0 ∨ v ∈ decayedScores M last.2 t (sortAsc parsed))) := by
  have hchar : ∀ t : String,
      dictLookup t (M.query_terms_accum (sortAsc parsed) last.2) =
        if decayedScores M last.2 t (sortAsc parsed) = [] then none
        else some ((decayedScores M last.2 t (sortAsc parsed)).foldl
          (fun a x => max x a) 0) := by
    intro t
    simpa using lookup_accum M last.2 t (sortAsc parsed) []
  refine ⟨?_, hchar, ?_⟩
  · simp only [QueryModeller.model_ranked, hp, hl]
  · intro t v hv
    rw [hchar t] at hv
    split at hv
    · exact absurd hv (by simp)
    · obtain ⟨rfl⟩ := hv
      exact ⟨foldlMax_ge_init _ 0, fun x hx => foldlMax_le _ 0 x hx,
        foldlMax_cases _ 0⟩

/-- C10, witness: on the single-entry session `[("x De de", 0)]` the
accumulator records `1.0` for `"de"` (the max of the decayed scores `1`
and `0`, not their sum), and the max-characterization applies to it. -/
theorem C10_witness :
    dictLookup "de" (modellerCap.query_terms_accum
      (sortAsc [("x De de", 0)]) 0) = some 1 ∧
    (0 ≤ (1 : ℝ) ∧
      (∀ x ∈ decayedScores modellerCap 0 "de" (sortAsc [("x De de", 0)]),
        x ≤ 1) ∧
      ((1 : ℝ) = 0 ∨
        (1 : ℝ) ∈ decayedScores modellerCap 0 "de" (sortAsc [("x De de", 0)]))) := by
  have hsort : sortAsc [(("x De de" : String), (0 : ℝ))] = [("x De de", 0)] := rfl
  have hlookup : dictLookup "de" (modellerCap.query_terms_accum
      (sortAsc [("x De de", 0)]) 0) = some 1 := by
    rw [hsort, modellerCap_accum_eval]
    simp [dictLookup]
  exact ⟨hlookup, (C10_thm modellerCap [("x De de", some 0)] [("x De de", 0)]
    ("x De de", 0) rfl rfl).2.2 "de" 1 hlookup⟩

end DQM
